import Mathlib

/-!
Verification of the sliding-window rate limiter.

The embedding follows the two backend files of the repository:
* `src/rate_limiter.py` — `SlidingWindowRateLimiter` (in-memory backend);
* `src/redis_limiter.py` — `RedisRateLimiter` together with its two Lua
  scripts (`RATE_LIMIT_SCRIPT`, `GET_USAGE_SCRIPT`) and `DELETE`-based reset.

Wall-clock timestamps (Python floats from `time.time()`) are modelled as
rationals; Python integers (limits) as `ℤ`; per-key dictionaries as total
functions from `String` defaulting to the empty list (`defaultdict(list)`).
Each call samples the clock once, so the sampled time is an explicit
parameter of every modelled operation.
-/

namespace AIRateLimiter

/-- Wall-clock timestamps, in seconds. -/
abbrev Time := ℚ

/-! ### `src/rate_limiter.py` — `SlidingWindowRateLimiter`, per-key core -/

/-- `_get_key` (rate_limiter.py): `f"{user_id}:{model_id}"`. -/
def getKey (user_id model_id : String) : String :=
  user_id ++ ":" ++ model_id

/-- `_cleanup_old_entries` (rate_limiter.py): keep exactly the timestamps
`ts` with `ts > current_time - window_seconds`. -/
def cleanupOldEntries (window_seconds : ℚ) (log : List Time) (current_time : Time) :
    List Time :=
  log.filter (fun ts => decide (current_time - window_seconds < ts))

/-- The body of `allow` (rate_limiter.py) acting on a single key's log:
clean up, then deny if `len(log) >= effective_limit`, else append `now`.
Returns the key's new log and the boolean result. -/
def allowStep (window_seconds : ℚ) (effective_limit : ℤ) (log : List Time) (now : Time) :
    List Time × Bool :=
  let cleaned := cleanupOldEntries window_seconds log now
  if effective_limit ≤ (cleaned.length : ℤ) then (cleaned, false)
  else (cleaned ++ [now], true)

/-- The dictionary returned by `get_usage`. -/
structure Usage where
  user_id : String
  model_id : String
  requests_used : ℕ
  requests_remaining : ℤ
  window_seconds : ℚ
deriving DecidableEq

/-- The body of `get_usage` (rate_limiter.py) acting on a single key's log:
clean up (the cleaned log is written back), count, and report
`max(0, default_limit - count)` remaining. -/
def getUsageLog (default_limit : ℤ) (window_seconds : ℚ) (user_id model_id : String)
    (log : List Time) (current_time : Time) : List Time × Usage :=
  let cleaned := cleanupOldEntries window_seconds log current_time
  (cleaned,
   { user_id := user_id
     model_id := model_id
     requests_used := cleaned.length
     requests_remaining := max 0 (default_limit - (cleaned.length : ℤ))
     window_seconds := window_seconds })

/-! ### `src/redis_limiter.py` — Lua scripts over a sorted set

A Redis sorted set is modelled as a list of members in insertion order.
A member added by `RATE_LIMIT_SCRIPT` is the string `now .. '-' .. rand`
with score `now`; we model it as the pair `(score, rand)`.  Redis re-seeds
the Lua pseudo-random generator identically on every script invocation, so
the script's single `math.random(1000000)` draw yields the same value on
every call: the suffix is a fixed (server-determined) constant, modelled
as an arbitrary but fixed natural number.  `ZADD` with an already-present
member only rewrites its (identical) score, leaving the set unchanged —
so two admissions at the same instant collapse into one member. -/

/-- One sorted-set member: its score and the suffix of its member name. -/
abbrev ZMember := Time × ℕ

/-- `ZREMRANGEBYSCORE key -inf window_start`: drop members with
score `≤ window_start`. -/
def zremLeScore (window_start : Time) (l : List ZMember) : List ZMember :=
  l.filter (fun e => decide (window_start < e.1))

/-- `ZADD key now member`: appends a new member; an existing member only
has its (identical) score rewritten, so the set is unchanged. -/
def zadd (l : List ZMember) (member : ZMember) : List ZMember :=
  if member ∈ l then l else l ++ [member]

/-- `RATE_LIMIT_SCRIPT` (redis_limiter.py): remove stale members, count,
deny with `0` if `count >= limit`, else `ZADD` the member
`now .. '-' .. math.random(1000000)` and return `1`.  The random draw is
the parameter `rand` (a constant across invocations, since Redis re-seeds
Lua's generator per invocation).  (`EXPIRE` only bounds memory for idle
keys; it deletes a key no earlier than the moment all its members are
stale, so it is observationally inert and not modelled.) -/
def rateLimitScript (l : List ZMember) (now : Time) (window : ℚ) (limit : ℤ)
    (rand : ℕ) : List ZMember × ℤ :=
  let l1 := zremLeScore (now - window) l
  if limit ≤ (l1.length : ℤ) then (l1, 0)
  else (zadd l1 (now, rand), 1)

/-- `GET_USAGE_SCRIPT` (redis_limiter.py): remove stale members, return the
count (`ZCARD`). -/
def getUsageScript (l : List ZMember) (now : Time) (window : ℚ) :
    List ZMember × ℕ :=
  let l1 := zremLeScore (now - window) l
  (l1, l1.length)

/-- Repeated `allow` calls on a single key (rate_limiter.py): thread the
log through `allowStep`, recording each call's sampled time and result. -/
def runAllows (w : ℚ) (L : ℤ) : List Time → List Time → List Time × List (Time × Bool)
  | log, [] => (log, [])
  | log, t :: ts =>
    let r := allowStep w L log t
    let rest := runAllows w L r.1 ts
    (rest.1, (t, r.2) :: rest.2)

/-- The timestamps of the `true` results of a run of `allow` calls. -/
def admittedTimes (w : ℚ) (L : ℤ) (log : List Time) (ts : List Time) : List Time :=
  (((runAllows w L log ts).2.filter (fun p => p.2)).map Prod.fst)

/-- Pointwise update of a string-keyed table. -/
def setKey {α : Type} (f : String → α) (k : String) (v : α) : String → α :=
  fun q => if q = k then v else f q

/-! ### `SlidingWindowRateLimiter` as a whole (rate_limiter.py) -/

/-- The in-memory limiter: configuration plus the per-key logs
(`defaultdict(list)`: absent keys read as `[]`). -/
structure LocalLimiter where
  default_limit : ℤ
  window_seconds : ℚ
  request_logs : String → List Time

/-- `SlidingWindowRateLimiter.__init__`. -/
def LocalLimiter.init (default_limit : ℤ) (window_seconds : ℚ) : LocalLimiter :=
  ⟨default_limit, window_seconds, fun _ => []⟩

/-- `SlidingWindowRateLimiter.allow`: effective limit is the override if
given, else the default; the cleaned/extended log is written back. -/
def LocalLimiter.allow (s : LocalLimiter) (user_id model_id : String) (limit : Option ℤ)
    (now : Time) : LocalLimiter × Bool :=
  let key := getKey user_id model_id
  let effective_limit := limit.getD s.default_limit
  let r := allowStep s.window_seconds effective_limit (s.request_logs key) now
  ({ s with request_logs := setKey s.request_logs key r.1 }, r.2)

/-- `SlidingWindowRateLimiter.get_usage`: the cleanup's result is written
back, and the usage dictionary is returned. -/
def LocalLimiter.get_usage (s : LocalLimiter) (user_id model_id : String) (now : Time) :
    LocalLimiter × Usage :=
  let key := getKey user_id model_id
  let r := getUsageLog s.default_limit s.window_seconds user_id model_id
    (s.request_logs key) now
  ({ s with request_logs := setKey s.request_logs key r.1 }, r.2)

/-- `SlidingWindowRateLimiter.reset`: clears the key's log. -/
def LocalLimiter.reset (s : LocalLimiter) (user_id model_id : String) : LocalLimiter :=
  { s with request_logs := setKey s.request_logs (getKey user_id model_id) [] }

/-! ### `RedisRateLimiter` as a whole (redis_limiter.py) -/

/-- The distributed limiter: configuration, the backing store's sorted sets
(absent keys read as the empty set) and the fixed value that every
invocation's `math.random(1000000)` draw produces (Redis re-seeds the Lua
generator identically per invocation). -/
structure RedisLimiter where
  default_limit : ℤ
  window_seconds : ℚ
  keyPfx : String
  store : String → List ZMember
  randSuffix : ℕ

/-- `RedisRateLimiter.__init__` over an empty store. -/
def RedisLimiter.init (default_limit : ℤ) (window_seconds : ℚ) (keyPfx : String)
    (randSuffix : ℕ) : RedisLimiter :=
  ⟨default_limit, window_seconds, keyPfx, fun _ => [], randSuffix⟩

/-- `RedisRateLimiter._get_key`: `f"{self.key_prefix}:{user_id}:{model_id}"`. -/
def RedisLimiter.getKey (s : RedisLimiter) (user_id model_id : String) : String :=
  s.keyPfx ++ ":" ++ user_id ++ ":" ++ model_id

/-- `RedisRateLimiter.allow`: one `EVALSHA` of `RATE_LIMIT_SCRIPT`; the
call is allowed iff the script returned `1`. -/
def RedisLimiter.allow (s : RedisLimiter) (user_id model_id : String) (limit : Option ℤ)
    (now : Time) : RedisLimiter × Bool :=
  let key := s.getKey user_id model_id
  let effective_limit := limit.getD s.default_limit
  let r := rateLimitScript (s.store key) now s.window_seconds effective_limit s.randSuffix
  ({ s with store := setKey s.store key r.1 }, r.2 == 1)

/-- `RedisRateLimiter.get_usage`: one `EVALSHA` of `GET_USAGE_SCRIPT`, then
the same usage dictionary as the local backend. -/
def RedisLimiter.get_usage (s : RedisLimiter) (user_id model_id : String) (now : Time) :
    RedisLimiter × Usage :=
  let key := s.getKey user_id model_id
  let r := getUsageScript (s.store key) now s.window_seconds
  ({ s with store := setKey s.store key r.1 },
   { user_id := user_id
     model_id := model_id
     requests_used := r.2
     requests_remaining := max 0 (s.default_limit - (r.2 : ℤ))
     window_seconds := s.window_seconds })

/-- `RedisRateLimiter.reset`: `DELETE` of the backing key. -/
def RedisLimiter.reset (s : RedisLimiter) (user_id model_id : String) : RedisLimiter :=
  { s with store := setKey s.store (s.getKey user_id model_id) [] }

/-! ### Call traces against a limiter -/

/-- One inbound call, annotated with the time `time.time()` samples for it. -/
inductive OpCall where
  | allow (user_id model_id : String) (limit : Option ℤ) (now : Time)
  | usage (user_id model_id : String) (now : Time)
  | reset (user_id model_id : String)
deriving DecidableEq

/-- The subject id an operation targets. -/
def OpCall.user : OpCall → String
  | .allow u _ _ _ => u
  | .usage u _ _ => u
  | .reset u _ => u

/-- The resource id an operation targets. -/
def OpCall.model : OpCall → String
  | .allow _ m _ _ => m
  | .usage _ m _ => m
  | .reset _ m => m

/-- The composite key and sampled time of an `allow` call (`none` for the
other operations): the data that determines the sorted-set member the
admit script would insert. -/
def OpCall.allowStamp : OpCall → Option (String × Time)
  | .allow u m _ now => some (getKey u m, now)
  | .usage _ _ _ => none
  | .reset _ _ => none

/-- No two `allow` calls of the sequence share both their composite key
and their sampled timestamp (so no two admissions can ever map to the
same sorted-set member). -/
def NoDupAllowStamps (ops : List OpCall) : Prop :=
  List.Pairwise (fun o1 o2 => o1.allowStamp = none ∨ o1.allowStamp ≠ o2.allowStamp) ops

/-- An externally observable result of one call. -/
inductive Out where
  | allowed (b : Bool)
  | report (u : Usage)
  | done
deriving DecidableEq

/-- Dispatch one call on the local backend. -/
def LocalLimiter.step (s : LocalLimiter) : OpCall → LocalLimiter × Out
  | .allow u m lim now => let r := s.allow u m lim now; (r.1, .allowed r.2)
  | .usage u m now => let r := s.get_usage u m now; (r.1, .report r.2)
  | .reset u m => (s.reset u m, .done)

/-- Run a call sequence on the local backend. -/
def runLocal (s : LocalLimiter) : List OpCall → LocalLimiter × List Out
  | [] => (s, [])
  | op :: ops =>
    let r := s.step op
    let rest := runLocal r.1 ops
    (rest.1, r.2 :: rest.2)

/-- Dispatch one call on the distributed backend. -/
def RedisLimiter.step (s : RedisLimiter) : OpCall → RedisLimiter × Out
  | .allow u m lim now => let r := s.allow u m lim now; (r.1, .allowed r.2)
  | .usage u m now => let r := s.get_usage u m now; (r.1, .report r.2)
  | .reset u m => (s.reset u m, .done)

/-- Run a call sequence on the distributed backend. -/
def runRedis (s : RedisLimiter) : List OpCall → RedisLimiter × List Out
  | [] => (s, [])
  | op :: ops =>
    let r := s.step op
    let rest := runRedis r.1 ops
    (rest.1, r.2 :: rest.2)

/-! ### The error path of `RedisRateLimiter.allow` (claim C9)

`redis_limiter.py` calls `evalsha` exactly once per `allow`, with no
`try`/`except` around it: the modelled call consumes the first reply of
the backing store and maps any error reply straight out. -/

/-- A failure reply from the backing store: the specific unknown-script
reply (`NOSCRIPT`), or any other store failure. -/
inductive StoreErr where
  | noscript
  | connectionLost
deriving DecidableEq

/-- `RedisRateLimiter.allow`'s interaction with `evalsha`, with the store's
replies made explicit: the code issues a single `evalsha` and performs no
error handling, so the first reply fully determines the outcome. -/
def redisAllowReplies (replies : List (Except StoreErr ℤ)) : Except StoreErr Bool :=
  match replies with
  | [] => .error .connectionLost
  | r :: _ => r.map (fun v => v == 1)

/-- The simulation relation between the two backends: same configuration,
and each local per-key log is the score column of the corresponding
prefixed sorted set. -/
def Corresponds (l : LocalLimiter) (r : RedisLimiter) : Prop :=
  l.default_limit = r.default_limit ∧
  l.window_seconds = r.window_seconds ∧
  (∀ k : String, (r.store (r.keyPfx ++ ":" ++ k)).map Prod.fst = l.request_logs k)

/-! ### Theorems: per-call behaviour -/

/-- Helper: counting in a filtered list of rationals. -/
theorem count_filter_decide (p : ℚ → Prop) [DecidablePred p] (x : ℚ) (l : List ℚ) :
    (l.filter (fun y => decide (p y))).count x = if p x then l.count x else 0 := by
  induction l with
  | nil => simp
  | cons a l ih =>
    by_cases hpa : p a
    · by_cases hax : a = x
      · subst hax
        simp [List.count_cons, hpa, ih]
      · simp [List.count_cons, hpa, ih, hax]
    · by_cases hax : a = x
      · subst hax
        simp [List.count_cons, hpa, ih]
      · simp [List.count_cons, hpa, ih, hax]

/-- C2: one `allow` call first discards exactly the timestamps
`≤ now - window_seconds` (multiplicity-exact), then denies without appending
when the remaining count is at least the limit, and otherwise appends the
single entry `now` and admits. -/
theorem allow_cleans_then_decides (w : ℚ) (L : ℤ) (log : List Time) (now : Time) :
    (∀ x : Time, (cleanupOldEntries w log now).count x =
        if now - w < x then log.count x else 0) ∧
    (L ≤ ((cleanupOldEntries w log now).length : ℤ) →
        allowStep w L log now = (cleanupOldEntries w log now, false)) ∧
    (((cleanupOldEntries w log now).length : ℤ) < L →
        allowStep w L log now = (cleanupOldEntries w log now ++ [now], true)) := by
  refine ⟨fun x => count_filter_decide _ x log, fun h => ?_, fun h => ?_⟩
  · simp [allowStep, h]
  · simp [allowStep, not_le.mpr h]

/-- Witness for `allow_cleans_then_decides` at a concrete input. -/
theorem allow_cleans_then_decides_witness :
    ((cleanupOldEntries 10 [(0 : ℚ), -20] 0).count 0 =
        if (0 : ℚ) - 10 < 0 then ([(0 : ℚ), -20].count 0) else 0) ∧
    allowStep 10 1 [(0 : ℚ), -20] 0 = (cleanupOldEntries 10 [(0 : ℚ), -20] 0, false) := by
  refine ⟨(allow_cleans_then_decides 10 1 [(0 : ℚ), -20] 0).1 0, ?_⟩
  exact (allow_cleans_then_decides 10 1 [(0 : ℚ), -20] 0).2.1
    (by norm_num [cleanupOldEntries, List.filter])

/-- C7: a non-positive effective limit starves immediately: `allow` returns
`false` and records nothing, for every window state and call time; likewise
the Redis admit script returns `0` without `ZADD`. -/
theorem nonpositive_limit_starves (w : ℚ) (L : ℤ) (log : List Time)
    (zl : List ZMember) (now : Time) (nonce : ℕ) (hL : L ≤ 0) :
    allowStep w L log now = (cleanupOldEntries w log now, false) ∧
    rateLimitScript zl now w L nonce = (zremLeScore (now - w) zl, 0) := by
  constructor
  · have h : L ≤ ((cleanupOldEntries w log now).length : ℤ) :=
      le_trans hL (Int.ofNat_nonneg _)
    simp [allowStep, h]
  · have h : L ≤ ((zremLeScore (now - w) zl).length : ℤ) :=
      le_trans hL (Int.ofNat_nonneg _)
    simp [rateLimitScript, h]

/-- Witness for `nonpositive_limit_starves`. -/
theorem nonpositive_limit_starves_witness :
    allowStep 10 0 [(3 : ℚ)] 5 = (cleanupOldEntries 10 [(3 : ℚ)] 5, false) ∧
    rateLimitScript [((3 : ℚ), 0)] 5 10 0 7 = (zremLeScore (5 - 10) [((3 : ℚ), 0)], 0) :=
  nonpositive_limit_starves 10 0 [(3 : ℚ)] [((3 : ℚ), 0)] 5 7 (by decide)

/-- C8: with `window_seconds ≤ 0` every previously recorded timestamp
(which is `≤ now` under a monotone clock) is stale on the next call, so the
cleanup removes everything and any positive limit admits: the limiter
degenerates to unlimited admission. -/
theorem nonpositive_window_admits_all (w : ℚ) (L : ℤ) (log : List Time) (now : Time)
    (hw : w ≤ 0) (hL : 0 < L) (hpast : ∀ x ∈ log, x ≤ now) :
    cleanupOldEntries w log now = [] ∧ allowStep w L log now = ([now], true) := by
  have hclean : cleanupOldEntries w log now = [] := by
    unfold cleanupOldEntries
    rw [List.filter_eq_nil_iff]
    intro x hx
    have : x ≤ now - w := le_trans (hpast x hx) (by linarith)
    simpa using not_lt.mpr this
  refine ⟨hclean, ?_⟩
  unfold allowStep
  rw [hclean]
  simp [not_le.mpr hL]

/-- Witness for `nonpositive_window_admits_all`. -/
theorem nonpositive_window_admits_all_witness :
    cleanupOldEntries (-1) [(2 : ℚ), 5] 5 = [] ∧
    allowStep (-1) 3 [(2 : ℚ), 5] 5 = ([5], true) :=
  nonpositive_window_admits_all (-1) 3 [(2 : ℚ), 5] 5 (by norm_num) (by decide)
    (by intro x hx; fin_cases hx <;> norm_num)

/-! ### Theorems: the sliding-window invariant (claim C1) -/

/-- Helper: unfolding `admittedTimes` over one call. -/
theorem admittedTimes_cons (w : ℚ) (L : ℤ) (log : List Time) (t : Time) (ts : List Time) :
    admittedTimes w L log (t :: ts) =
      (if (allowStep w L log t).2 then [t] else []) ++
        admittedTimes w L (allowStep w L log t).1 ts := by
  simp only [admittedTimes, runAllows]
  by_cases hb : (allowStep w L log t).2 <;> simp [hb, List.filter_cons]

/-- Helper: the admitted times form a sublist of the call times. -/
theorem admittedTimes_sublist (w : ℚ) (L : ℤ) :
    ∀ (ts : List Time) (log : List Time), List.Sublist (admittedTimes w L log ts) ts := by
  intro ts
  induction ts with
  | nil => intro log; simp [admittedTimes, runAllows]
  | cons t ts ih =>
    intro log
    rw [admittedTimes_cons]
    by_cases hb : (allowStep w L log t).2
    · simp only [hb, if_true, List.singleton_append]
      exact (ih _).cons₂ t
    · simp only [hb, if_false, List.nil_append]
      exact (ih _).cons t

/-- Helper: a pointwise-stronger filter keeps no more elements. -/
theorem length_filter_le_of_imp {p q : ℚ → Bool} :
    ∀ (l : List ℚ), (∀ x ∈ l, p x = true → q x = true) →
      (l.filter p).length ≤ (l.filter q).length := by
  intro l
  induction l with
  | nil => intro _; simp
  | cons a l ih =>
    intro h
    have ht := ih (fun x hx => h x (List.mem_cons_of_mem a hx))
    by_cases hpa : p a = true
    · have hqa := h a (List.mem_cons_self a l) hpa
      simp only [List.filter_cons, hpa, hqa, if_true, List.length_cons]
      omega
    · by_cases hqa : q a = true <;>
        simp only [List.filter_cons, hpa, hqa, if_true, if_false, List.length_cons,
          Bool.false_eq_true, List.length_nil] <;>
      omega

/-- Helper: filtering by a later window start absorbs an earlier one. -/
theorem filter_lt_absorb (b c : ℚ) (hbc : b ≤ c) (l : List ℚ) :
    (l.filter (fun x => decide (b < x))).filter (fun x => decide (c < x)) =
      l.filter (fun x => decide (c < x)) := by
  induction l with
  | nil => rfl
  | cons a l ih =>
    by_cases hca : c < a
    · have hba : b < a := lt_of_le_of_lt hbc hca
      simp [List.filter_cons, hba, hca, ih]
    · by_cases hba : b < a <;> simp [List.filter_cons, hba, hca, ih]

/-- Helper (the heart of C1): along a monotone call sequence, at the moment
a call at time `t` is admitted, the whole set of admitted timestamps lying
in `(t - w, t]` — earlier history `H`, the admitted prefix `A₁`, and `t`
itself — has size at most `L`. -/
theorem admitted_split_bound (w : ℚ) (L : ℤ) (hw : 0 < w) :
    ∀ (ts : List Time) (H : List Time) (l₀ : Time),
      List.Sorted (· ≤ ·) ts → (∀ t ∈ ts, l₀ ≤ t) →
      ∀ A₁ t A₂,
        admittedTimes w L (H.filter (fun x => decide (l₀ - w < x))) ts =
          A₁ ++ t :: A₂ →
        (((H ++ A₁ ++ [t]).filter (fun x => decide (t - w < x))).length : ℤ) ≤ L := by
  intro ts
  induction ts with
  | nil =>
    intro H l₀ _ _ A₁ t A₂ heq
    simp only [admittedTimes, runAllows, List.filter_nil, List.map_nil] at heq
    cases A₁ <;> simp at heq
  | cons t₀ ts ih =>
    intro H l₀ hsorted hl₀ A₁ t A₂ heq
    obtain ⟨h₀all, hsorted'⟩ := List.sorted_cons.mp hsorted
    have hl0t : l₀ ≤ t₀ := hl₀ t₀ (List.mem_cons_self _ _)
    have hclean : cleanupOldEntries w (H.filter (fun x => decide (l₀ - w < x))) t₀ =
        H.filter (fun x => decide (t₀ - w < x)) := by
      rw [cleanupOldEntries]
      exact filter_lt_absorb (l₀ - w) (t₀ - w) (by linarith) H
    rw [admittedTimes_cons] at heq
    by_cases hc : L ≤ ((H.filter (fun x => decide (t₀ - w < x))).length : ℤ)
    · -- the call at t₀ is denied
      have hstep : allowStep w L (H.filter (fun x => decide (l₀ - w < x))) t₀ =
          (H.filter (fun x => decide (t₀ - w < x)), false) := by
        rw [allowStep, hclean]
        simp [hc]
      rw [hstep] at heq
      simp only [if_false, List.nil_append, Bool.false_eq_true] at heq
      exact ih H t₀ hsorted' h₀all A₁ t A₂ heq
    · -- the call at t₀ is admitted
      push_neg at hc
      have hstep : allowStep w L (H.filter (fun x => decide (l₀ - w < x))) t₀ =
          (H.filter (fun x => decide (t₀ - w < x)) ++ [t₀], true) := by
        rw [allowStep, hclean]
        simp [not_le.mpr hc]
      rw [hstep] at heq
      simp only [if_true, List.singleton_append] at heq
      have ht₀w : t₀ - w < t₀ := by linarith
      have hnewlog : H.filter (fun x => decide (t₀ - w < x)) ++ [t₀] =
          (H ++ [t₀]).filter (fun x => decide (t₀ - w < x)) := by
        simp [List.filter_append, ht₀w]
      cases A₁ with
      | nil =>
        simp only [List.nil_append] at heq
        obtain ⟨ht, -⟩ := List.cons_eq_cons.mp heq
        subst ht
        rw [List.append_nil, ← hnewlog]
        push_cast [List.length_append]
        simp only [List.length_cons, List.length_nil]
        push_cast
        linarith
      | cons a A₁' =>
        rw [List.cons_append] at heq
        obtain ⟨ha, htail⟩ := List.cons_eq_cons.mp heq
        subst ha
        rw [hnewlog] at htail
        have hb := ih (H ++ [t₀]) t₀ hsorted' h₀all A₁' t A₂ htail
        have hlist : H ++ (t₀ :: A₁') ++ [t] = ((H ++ [t₀]) ++ A₁') ++ [t] := by
          simp [List.append_assoc]
        rw [hlist]
        exact hb

/-- Helper: the per-key log never grows beyond the (fixed) limit. -/
theorem runAllows_length_le (w : ℚ) (L : ℤ) :
    ∀ (ts : List Time) (log : List Time), (log.length : ℤ) ≤ L →
      (((runAllows w L log ts).1.length : ℤ) ≤ L) := by
  intro ts
  induction ts with
  | nil => intro log h; simpa [runAllows] using h
  | cons t ts ih =>
    intro log h
    simp only [runAllows]
    apply ih
    rw [allowStep]
    by_cases hc : L ≤ ((cleanupOldEntries w log t).length : ℤ)
    · simp only [if_pos hc]
      calc ((cleanupOldEntries w log t).length : ℤ) ≤ (log.length : ℤ) := by
            exact_mod_cast List.length_filter_le _ _
        _ ≤ L := h
    · simp only [if_neg hc]
      push_neg at hc
      simp only [List.length_append, List.length_cons, List.length_nil]
      push_cast
      linarith

/-- Helper: a sorted list all of whose "at-admission" window counts are
bounded by `L` has at most `L` elements inside any half-open window
`(a, a + w]`. -/
theorem window_count_of_split_bounds (w : ℚ) (L : ℤ) (hL0 : 0 ≤ L) :
    ∀ (A : List Time), List.Sorted (· ≤ ·) A →
      (∀ A₁ t A₂, A = A₁ ++ t :: A₂ →
        (((A₁ ++ [t]).filter (fun x => decide (t - w < x))).length : ℤ) ≤ L) →
      ∀ a : ℚ,
        ((A.filter (fun x => decide (a < x) && decide (x ≤ a + w))).length : ℤ) ≤ L := by
  intro A
  induction A using List.reverseRecOn with
  | nil => intro _ _ a; simpa using hL0
  | append_singleton B t ihB =>
    intro hsorted hbounds a
    have hsB : List.Sorted (· ≤ ·) B :=
      List.Pairwise.sublist (List.sublist_append_left B [t]) hsorted
    by_cases hta : t ≤ a + w
    · have himp : ∀ x ∈ B ++ [t], (decide (a < x) && decide (x ≤ a + w)) = true →
          decide (t - w < x) = true := by
        intro x _ hx
        have h1 : a < x ∧ x ≤ a + w := by simpa using hx
        simp only [decide_eq_true_eq]
        linarith [h1.1]
      have hle := length_filter_le_of_imp (B ++ [t]) himp
      have hsplit := hbounds B t [] (by simp)
      calc (((B ++ [t]).filter (fun x => decide (a < x) && decide (x ≤ a + w))).length : ℤ)
          ≤ (((B ++ [t]).filter (fun x => decide (t - w < x))).length : ℤ) := by
            exact_mod_cast hle
        _ ≤ L := hsplit
    · have hfil : (B ++ [t]).filter (fun x => decide (a < x) && decide (x ≤ a + w)) =
          B.filter (fun x => decide (a < x) && decide (x ≤ a + w)) := by
        simp [List.filter_append, hta]
      rw [hfil]
      apply ihB hsB
      intro A₁ s A₂ hsplit
      exact hbounds A₁ s (A₂ ++ [t]) (by rw [hsplit]; simp)

/-- C1: along any monotone sequence of `allow` calls on one key with fixed
limit `L > 0` and window `w > 0`: (i) after any prefix of the calls the
key's stored log — hence also its live subset at any query instant — has
at most `L` entries; (ii) the timestamps of the `true` results falling
inside any window `(a, a + w]` number at most `L`. -/
theorem sliding_window_count_bounded (w : ℚ) (L : ℤ) (ts : List Time)
    (hw : 0 < w) (hL : 0 < L) (hsorted : List.Sorted (· ≤ ·) ts) :
    (∀ pre suf, ts = pre ++ suf →
        (((runAllows w L [] pre).1.length : ℤ) ≤ L) ∧
        ∀ tq : Time, (((cleanupOldEntries w (runAllows w L [] pre).1 tq).length : ℤ) ≤ L)) ∧
    (∀ a : ℚ, (((admittedTimes w L [] ts).filter
        (fun x => decide (a < x) && decide (x ≤ a + w))).length : ℤ) ≤ L) := by
  constructor
  · intro pre suf hps
    have h1 : ((runAllows w L [] pre).1.length : ℤ) ≤ L :=
      runAllows_length_le w L pre [] (by simpa using le_of_lt hL)
    refine ⟨h1, fun tq => le_trans ?_ h1⟩
    exact_mod_cast List.length_filter_le _ _
  · intro a
    have hsortedA : List.Sorted (· ≤ ·) (admittedTimes w L [] ts) :=
      List.Pairwise.sublist (admittedTimes_sublist w L ts []) hsorted
    refine window_count_of_split_bounds w L (le_of_lt hL) _ hsortedA ?_ a
    intro A₁ t A₂ hsplit
    cases ts with
    | nil =>
      exfalso
      have : admittedTimes w L [] ([] : List Time) = [] := rfl
      rw [this] at hsplit
      cases A₁ <;> simp at hsplit
    | cons t₀ ts' =>
      obtain ⟨h₀all, -⟩ := List.sorted_cons.mp hsorted
      have hall : ∀ x ∈ t₀ :: ts', t₀ ≤ x := by
        intro x hx
        rcases List.mem_cons.mp hx with h | h
        · exact h ▸ le_refl t₀
        · exact h₀all x h
      have hA := admitted_split_bound w L hw (t₀ :: ts') [] t₀ hsorted hall A₁ t A₂
        (by simpa using hsplit)
      simpa using hA

/-- Witness for `sliding_window_count_bounded`. -/
theorem sliding_window_count_bounded_witness :
    (((runAllows 10 2 [] [(0 : ℚ), 1]).1.length : ℤ) ≤ 2) ∧
    ((((admittedTimes 10 2 [] [(0 : ℚ), 1, 2, 3]).filter
        (fun x => decide ((0 : ℚ) < x) && decide (x ≤ 0 + 10))).length : ℤ) ≤ 2) := by
  have h := sliding_window_count_bounded 10 2 [(0 : ℚ), 1, 2, 3]
    (by norm_num) (by decide) (by decide)
  exact ⟨(h.1 [(0 : ℚ), 1] [2, 3] (by decide)).1, h.2 0⟩

/-! ### Theorems: usage reporting -/

/-- Helper: a run of `allow` calls whose times all lie inside the window of
a later instant `tu`, with enough capacity, admits every call and appends
all the call times. -/
theorem runAllows_all_fresh (w : ℚ) (L : ℤ) (tu : Time) :
    ∀ (ts : List Time) (log : List Time),
      ((log.length : ℤ) + ts.length ≤ L) →
      (∀ x ∈ log, tu - w < x) →
      (∀ t ∈ ts, tu - w < t ∧ t ≤ tu) →
      runAllows w L log ts = (log ++ ts, ts.map (fun t => (t, true))) := by
  intro ts
  induction ts with
  | nil => intro log _ _ _; simp [runAllows]
  | cons t ts ih =>
    intro log hlen hlog hts
    have ht := hts t (List.mem_cons_self t ts)
    have hclean : cleanupOldEntries w log t = log := by
      rw [cleanupOldEntries, List.filter_eq_self]
      intro x hx
      have h1 := hlog x hx
      have h2 : t - w < x := by have := ht.2; linarith
      simpa using h2
    have hlenlt : (log.length : ℤ) < L := by
      have h1 : (log.length : ℤ) + (ts.length + 1) ≤ L := by
        simpa [List.length_cons, add_comm] using hlen
      linarith
    have hstep : allowStep w L log t = (log ++ [t], true) := by
      simp [allowStep, hclean, not_le.mpr hlenlt]
    have hrest := ih (log ++ [t])
      (by simp [List.length_append]; linarith [hlen, List.length_cons t ts])
      (by
        intro x hx
        rcases List.mem_append.mp hx with h | h
        · exact hlog x h
        · simpa [List.mem_singleton.mp h] using ht.1)
      (fun x hx => hts x (List.mem_cons_of_mem t hx))
    simp only [runAllows, hstep, hrest, List.append_assoc, List.singleton_append,
      List.map_cons]

/-- C5 (amended): after `k` successful `allow` calls with limit `L`
(`k ≤ L`, no timestamp expired by the query instant), `get_usage` reports
`requests_used = k`; and `requests_remaining = default_limit - k` holds
provided additionally `k ≤ default_limit` (otherwise it is clamped to 0). -/
theorem usage_after_k_successes (d L : ℤ) (w : ℚ) (u m : String)
    (ts : List Time) (tu : Time)
    (hkL : (ts.length : ℤ) ≤ L) (hkd : (ts.length : ℤ) ≤ d)
    (hfresh : ∀ t ∈ ts, tu - w < t ∧ t ≤ tu) :
    (runAllows w L [] ts).2 = ts.map (fun t => (t, true)) ∧
    (getUsageLog d w u m (runAllows w L [] ts).1 tu).2.requests_used = ts.length ∧
    (getUsageLog d w u m (runAllows w L [] ts).1 tu).2.requests_remaining =
      d - ts.length := by
  have h := runAllows_all_fresh w L tu ts [] (by simpa using hkL) (by simp) hfresh
  have hcleanu : cleanupOldEntries w ts tu = ts := by
    rw [cleanupOldEntries, List.filter_eq_self]
    intro x hx
    simpa using (hfresh x hx).1
  rw [h]
  refine ⟨rfl, ?_, ?_⟩
  · simp [getUsageLog, hcleanu]
  · simp only [getUsageLog, List.nil_append, hcleanu]
    exact max_eq_right (by linarith)

/-- Witness for `usage_after_k_successes`. -/
theorem usage_after_k_successes_witness :
    (runAllows 10 3 [] [(1 : ℚ), 2]).2 = [((1 : ℚ), true), ((2 : ℚ), true)] ∧
    (getUsageLog 5 10 "u1" "m1" (runAllows 10 3 [] [(1 : ℚ), 2]).1 2).2.requests_used = 2 ∧
    (getUsageLog 5 10 "u1" "m1" (runAllows 10 3 [] [(1 : ℚ), 2]).1 2).2.requests_remaining =
      (5 : ℤ) - 2 := by
  have h := usage_after_k_successes 5 3 10 "u1" "m1" [(1 : ℚ), 2] 2
    (by norm_num) (by norm_num)
    (by intro t ht; fin_cases ht <;> norm_num)
  simpa using h

/-- C5 (counterexample to the original reading): with `default_limit = 1`,
two `allow` calls under override limit `2` both succeed (`k = 2 ≤ L`, no
expiry), yet `requests_remaining` is `0`, not `default_limit - k = -1`. -/
theorem usage_after_k_successes_cex :
    (runAllows 10 2 [] [(0 : ℚ), 0]).2 = [((0 : ℚ), true), ((0 : ℚ), true)] ∧
    (getUsageLog 1 10 "u1" "m1" (runAllows 10 2 [] [(0 : ℚ), 0]).1 0).2.requests_used = 2 ∧
    (getUsageLog 1 10 "u1" "m1" (runAllows 10 2 [] [(0 : ℚ), 0]).1 0).2.requests_remaining ≠
      (1 : ℤ) - (2 : ℤ) := by
  norm_num [runAllows, allowStep, cleanupOldEntries, getUsageLog, List.filter]

/-- C10: both backends report
`requests_remaining = max(0, default_limit - requests_used)`, which is
never negative and is exactly `0` whenever the live count exceeds the
default limit (e.g. after admissions under a larger override limit). -/
theorem usage_remaining_clamped (d : ℤ) (w : ℚ) (u m : String)
    (log : List Time) (now : Time) (r : RedisLimiter) :
    ((getUsageLog d w u m log now).2.requests_remaining =
        max 0 (d - ((getUsageLog d w u m log now).2.requests_used : ℤ))) ∧
    (0 ≤ (getUsageLog d w u m log now).2.requests_remaining) ∧
    (d < ((getUsageLog d w u m log now).2.requests_used : ℤ) →
        (getUsageLog d w u m log now).2.requests_remaining = 0) ∧
    ((r.get_usage u m now).2.requests_remaining =
        max 0 (r.default_limit - ((r.get_usage u m now).2.requests_used : ℤ))) ∧
    (0 ≤ (r.get_usage u m now).2.requests_remaining) := by
  refine ⟨rfl, le_max_left _ _, fun h => ?_, rfl, le_max_left _ _⟩
  simp only [getUsageLog] at h ⊢
  exact max_eq_left (by omega)

/-- Witness for `usage_remaining_clamped`. -/
theorem usage_remaining_clamped_witness :
    (getUsageLog 1 10 "u1" "m1" [(0 : ℚ), 0] 0).2.requests_remaining = 0 := by
  refine (usage_remaining_clamped 1 10 "u1" "m1" [(0 : ℚ), 0] 0
    (RedisLimiter.init 1 10 "ratelimit" 42)).2.2.1 ?_
  norm_num [getUsageLog, cleanupOldEntries, List.filter]

/-! ### Theorems: reset -/

/-- C6 (amended): immediately after a `reset` on a key, the next `allow`
call on that key returns `true` regardless of prior state, provided the
effective limit of that call is positive (a non-positive limit still
denies, per the zero-capacity rule). -/
theorem allow_after_reset_admits (s : LocalLimiter) (u m : String) (lim : Option ℤ)
    (now : Time) (hL : 0 < lim.getD s.default_limit) :
    ((s.reset u m).allow u m lim now).2 = true := by
  simp [LocalLimiter.reset, LocalLimiter.allow, setKey, allowStep, cleanupOldEntries,
    not_le.mpr hL]

/-- Witness for `allow_after_reset_admits`. -/
theorem allow_after_reset_admits_witness :
    (((LocalLimiter.init 1 10).reset "u1" "m1").allow "u1" "m1" none 5).2 = true :=
  allow_after_reset_admits (LocalLimiter.init 1 10) "u1" "m1" none 5 (by decide)

/-- C6 (counterexample to the original reading): after a `reset`, an
`allow` call carrying the override limit `0` still returns `false`, so the
"regardless of the limit" part of the claim fails. -/
theorem allow_after_reset_admits_cex :
    (((LocalLimiter.init 1 10).reset "u1" "m1").allow "u1" "m1" (some 0) 5).2 = false := by
  rfl

/-! ### Theorems: key separation -/

/-- Helper: one call on a pair whose composite key differs from `k` leaves
the log at `k` and the configuration unchanged. -/
theorem step_frame (s : LocalLimiter) (op : OpCall) (k : String)
    (h : getKey op.user op.model ≠ k) :
    (s.step op).1.request_logs k = s.request_logs k ∧
    (s.step op).1.default_limit = s.default_limit ∧
    (s.step op).1.window_seconds = s.window_seconds := by
  have h' : ¬ (k = getKey op.user op.model) := fun hk => h hk.symm
  cases op with
  | allow u m lim now =>
    refine ⟨?_, rfl, rfl⟩
    simp only [LocalLimiter.step, LocalLimiter.allow, setKey]
    rw [if_neg (by simpa [OpCall.user, OpCall.model] using h')]
  | usage u m now =>
    refine ⟨?_, rfl, rfl⟩
    simp only [LocalLimiter.step, LocalLimiter.get_usage, setKey]
    rw [if_neg (by simpa [OpCall.user, OpCall.model] using h')]
  | reset u m =>
    refine ⟨?_, rfl, rfl⟩
    simp only [LocalLimiter.step, LocalLimiter.reset, setKey]
    rw [if_neg (by simpa [OpCall.user, OpCall.model] using h')]

/-- Helper: a whole call sequence avoiding composite key `k` leaves the log
at `k` and the configuration unchanged. -/
theorem runLocal_frame (k : String) :
    ∀ (ops : List OpCall) (s : LocalLimiter),
      (∀ op ∈ ops, getKey op.user op.model ≠ k) →
      (runLocal s ops).1.request_logs k = s.request_logs k ∧
      (runLocal s ops).1.default_limit = s.default_limit ∧
      (runLocal s ops).1.window_seconds = s.window_seconds := by
  intro ops
  induction ops with
  | nil => intro s _; exact ⟨rfl, rfl, rfl⟩
  | cons op ops ih =>
    intro s hops
    have h1 := step_frame s op k (hops op (List.mem_cons_self op ops))
    have h2 := ih (s.step op).1 (fun o ho => hops o (List.mem_cons_of_mem op ho))
    exact ⟨h2.1.trans h1.1, h2.2.1.trans h1.2.1, h2.2.2.trans h1.2.2⟩

/-- C4 (amended): two pairs whose composite keys
`subject ++ ":" ++ resource` differ are fully independent: no sequence of
`allow`/`get_usage`/`reset` calls on the first pair changes the admission
decisions or the reported usage of the second.  (Pairs whose composite keys
collide — possible when ids contain `':'` — share one window.) -/
theorem distinct_pairs_noninterfering (s : LocalLimiter) (ops : List OpCall)
    (u1 m1 u2 m2 : String)
    (hops : ∀ op ∈ ops, op.user = u1 ∧ op.model = m1)
    (hne : getKey u1 m1 ≠ getKey u2 m2) :
    (∀ lim now, ((runLocal s ops).1.allow u2 m2 lim now).2 =
        (s.allow u2 m2 lim now).2) ∧
    (∀ now, ((runLocal s ops).1.get_usage u2 m2 now).2 =
        (s.get_usage u2 m2 now).2) := by
  have hkey : ∀ op ∈ ops, getKey op.user op.model ≠ getKey u2 m2 := by
    intro op hm
    rcases hops op hm with ⟨h1, h2⟩
    rw [h1, h2]
    exact hne
  obtain ⟨hlog, hd, hw⟩ := runLocal_frame (getKey u2 m2) ops s hkey
  constructor
  · intro lim now
    simp [LocalLimiter.allow, hlog, hd, hw]
  · intro now
    simp [LocalLimiter.get_usage, getUsageLog, hlog, hd, hw]

/-- Witness for `distinct_pairs_noninterfering`. -/
theorem distinct_pairs_noninterfering_witness :
    ((runLocal (LocalLimiter.init 1 10) [OpCall.allow "a" "b" none 0]).1.allow
        "x" "y" (some 2) 1).2 =
      ((LocalLimiter.init 1 10).allow "x" "y" (some 2) 1).2 := by
  refine (distinct_pairs_noninterfering (LocalLimiter.init 1 10)
    [OpCall.allow "a" "b" none 0] "a" "b" "x" "y" ?_ (by decide)).1 (some 2) 1
  intro op hop
  fin_cases hop
  exact ⟨rfl, rfl⟩

/-- C4 (counterexample to the original reading): the distinct pairs
`("a:b", "c")` and `("a", "b:c")` collide on the composite key `"a:b:c"`,
so with `default_limit = 1` an `allow` call on the first pair flips the
second pair's next admission decision from `true` to `false`. -/
theorem distinct_pairs_noninterfering_cex :
    (("a:b", "c") ≠ (("a", "b:c") : String × String)) ∧
    ((LocalLimiter.init 1 10).allow "a" "b:c" none 0).2 = true ∧
    ((((LocalLimiter.init 1 10).allow "a:b" "c" none 0).1.allow "a" "b:c" none 0).2 =
      false) := by
  refine ⟨by decide, rfl, ?_⟩
  norm_num [LocalLimiter.init, LocalLimiter.allow, allowStep, cleanupOldEntries,
    setKey, getKey, List.filter]

/-! ### Theorems: backend equivalence -/

/-- Helper: appending a fixed string on the left is injective. -/
theorem string_append_left_cancel (p a b : String) (h : p ++ a = p ++ b) : a = b := by
  have hd := congrArg String.data h
  simp [String.data_append] at hd
  exact String.ext hd

/-- Helper: the distributed key is the prefix joined to the local key. -/
theorem redis_key_factor (r : RedisLimiter) (u m : String) :
    r.getKey u m = r.keyPfx ++ ":" ++ getKey u m := by
  simp [RedisLimiter.getKey, getKey, String.append_assoc]

/-- Helper: the score column of a score-filtered sorted set. -/
theorem map_fst_filter_score (c : ℚ) (zl : List ZMember) :
    (zl.filter (fun e => decide (c < e.1))).map Prod.fst =
      (zl.map Prod.fst).filter (fun t => decide (c < t)) := by
  induction zl with
  | nil => rfl
  | cons e zl ih => by_cases h : c < e.1 <;> simp [h, ih]

/-- Helper: one admit-script run simulates one local `allow` step on a key
whose score column matches the local log, provided the call's timestamp is
not already a stored score (so the deterministic-suffix member is new and
`ZADD` really appends). -/
theorem rateLimitScript_simulates (zl : List ZMember) (log : List Time) (now : Time)
    (w : ℚ) (L : ℤ) (rand : ℕ)
    (hfst : zl.map Prod.fst = log) (hfresh : now ∉ log) :
    (rateLimitScript zl now w L rand).1.map Prod.fst = (allowStep w L log now).1 ∧
    (((rateLimitScript zl now w L rand).2 == 1) = (allowStep w L log now).2) := by
  have hfst1 : (zremLeScore (now - w) zl).map Prod.fst =
      cleanupOldEntries w log now := by
    rw [zremLeScore, cleanupOldEntries, map_fst_filter_score, hfst]
  have hlen : (zremLeScore (now - w) zl).length =
      (cleanupOldEntries w log now).length := by
    rw [← hfst1, List.length_map]
  by_cases hc : L ≤ ((zremLeScore (now - w) zl).length : ℤ)
  · have hc' : L ≤ ((cleanupOldEntries w log now).length : ℤ) := by
      rw [← hlen]; exact hc
    constructor
    · simp [rateLimitScript, allowStep, hc, hc', hfst1]
    · simp [rateLimitScript, allowStep, hc, hc']
  · have hc' : ¬ L ≤ ((cleanupOldEntries w log now).length : ℤ) := by
      rw [← hlen]; exact hc
    have hnotmem : (now, rand) ∉ zremLeScore (now - w) zl := by
      intro hmem
      have h1 : now ∈ (zremLeScore (now - w) zl).map Prod.fst :=
        List.mem_map.mpr ⟨(now, rand), hmem, rfl⟩
      rw [hfst1, cleanupOldEntries] at h1
      exact hfresh (List.mem_of_mem_filter h1)
    constructor
    · simp [rateLimitScript, allowStep, hc, hc', zadd, hnotmem, hfst1]
    · simp [rateLimitScript, allowStep, hc, hc']

/-- Helper: one usage-script run simulates one local `get_usage` cleanup. -/
theorem getUsageScript_simulates (zl : List ZMember) (log : List Time) (now : Time)
    (w : ℚ) (hfst : zl.map Prod.fst = log) :
    (getUsageScript zl now w).1.map Prod.fst =
      (log.filter (fun ts => decide (now - w < ts))) ∧
    (getUsageScript zl now w).2 = (log.filter (fun ts => decide (now - w < ts))).length := by
  have hfst1 : (zremLeScore (now - w) zl).map Prod.fst =
      log.filter (fun ts => decide (now - w < ts)) := by
    rw [zremLeScore, map_fst_filter_score, hfst]
  refine ⟨hfst1, ?_⟩
  simp only [getUsageScript]
  rw [← hfst1, List.length_map]

/-- Helper: a timestamp found in a key's log after one call was either
there before the call or is the stamp of that very call's admission. -/
theorem mem_step_log (l : LocalLimiter) (op : OpCall) (k : String) (t : Time)
    (h : t ∈ (l.step op).1.request_logs k) :
    t ∈ l.request_logs k ∨ op.allowStamp = some (k, t) := by
  cases op with
  | allow u m lim now =>
    simp only [LocalLimiter.step, LocalLimiter.allow, allowStep, cleanupOldEntries,
      setKey] at h
    split at h
    next hk =>
      split at h
      next hc => exact Or.inl (by rw [hk]; exact List.mem_of_mem_filter h)
      next hc =>
        rcases List.mem_append.mp h with h1 | h1
        · exact Or.inl (by rw [hk]; exact List.mem_of_mem_filter h1)
        · exact Or.inr (by simp [OpCall.allowStamp, hk, List.mem_singleton.mp h1])
    next hk => exact Or.inl h
  | usage u m now =>
    simp only [LocalLimiter.step, LocalLimiter.get_usage, getUsageLog,
      cleanupOldEntries, setKey] at h
    split at h
    next hk => exact Or.inl (by rw [hk]; exact List.mem_of_mem_filter h)
    next hk => exact Or.inl h
  | reset u m =>
    simp only [LocalLimiter.step, LocalLimiter.reset, setKey] at h
    split at h
    next hk => exact absurd h (List.not_mem_nil t)
    next hk => exact Or.inl h

/-- Helper: each call keeps the simulation relation and yields the same
observable output on both backends, provided an admitted timestamp is
never already present in its key's log (so the deduplicating `ZADD`
actually appends). -/
theorem step_preserves_corresponds (l : LocalLimiter) (r : RedisLimiter) (op : OpCall)
    (h : Corresponds l r)
    (hop : ∀ k t, op.allowStamp = some (k, t) → t ∉ l.request_logs k) :
    Corresponds (l.step op).1 (r.step op).1 ∧ (l.step op).2 = (r.step op).2 := by
  obtain ⟨hd, hw, hmap⟩ := h
  have hcancel : ∀ k k' : String,
      r.keyPfx ++ ":" ++ k = r.keyPfx ++ ":" ++ k' → k = k' := fun k k' hkk =>
    string_append_left_cancel (r.keyPfx ++ ":") k k' hkk
  cases op with
  | allow u m lim now =>
    have hfresh : now ∉ l.request_logs (getKey u m) := hop (getKey u m) now rfl
    have hsim := rateLimitScript_simulates (r.store (r.getKey u m))
      (l.request_logs (getKey u m)) now r.window_seconds (lim.getD r.default_limit)
      r.randSuffix (by rw [redis_key_factor]; exact hmap (getKey u m)) hfresh
    rw [redis_key_factor] at hsim
    have hdl : lim.getD l.default_limit = lim.getD r.default_limit := by rw [hd]
    refine ⟨⟨hd, hw, ?_⟩, ?_⟩
    · intro k
      simp only [LocalLimiter.step, LocalLimiter.allow, RedisLimiter.step,
        RedisLimiter.allow, setKey, redis_key_factor, hdl, hw]
      by_cases hkk : k = getKey u m
      · subst hkk
        simp only [eq_self_iff_true, if_true]
        exact hsim.1
      · rw [if_neg (fun hc => hkk (hcancel _ _ hc)), if_neg hkk]
        exact hmap k
    · simp only [LocalLimiter.step, LocalLimiter.allow, RedisLimiter.step,
        RedisLimiter.allow, hdl, hw, redis_key_factor]
      exact congrArg Out.allowed hsim.2.symm
  | usage u m now =>
    have hsim := getUsageScript_simulates (r.store (r.getKey u m))
      (l.request_logs (getKey u m)) now r.window_seconds
      (by rw [redis_key_factor]; exact hmap (getKey u m))
    rw [redis_key_factor] at hsim
    refine ⟨⟨hd, hw, ?_⟩, ?_⟩
    · intro k
      simp only [LocalLimiter.step, LocalLimiter.get_usage, RedisLimiter.step,
        RedisLimiter.get_usage, setKey, redis_key_factor, getUsageLog,
        cleanupOldEntries, hw]
      by_cases hkk : k = getKey u m
      · subst hkk
        simp only [eq_self_iff_true, if_true]
        exact hsim.1
      · rw [if_neg (fun hc => hkk (hcancel _ _ hc)), if_neg hkk]
        exact hmap k
    · simp only [LocalLimiter.step, LocalLimiter.get_usage, RedisLimiter.step,
        RedisLimiter.get_usage, getUsageLog, cleanupOldEntries, hd, hw,
        redis_key_factor]
      rw [hsim.2]
  | reset u m =>
    refine ⟨⟨hd, hw, ?_⟩, rfl⟩
    intro k
    simp only [LocalLimiter.reset, RedisLimiter.reset, LocalLimiter.step,
      RedisLimiter.step, setKey, redis_key_factor]
    by_cases hkk : k = getKey u m
    · subst hkk
      simp
    · rw [if_neg (fun hc => hkk (hcancel _ _ hc)), if_neg hkk]
      exact hmap k

/-- Helper: related states give identical output traces for sequences with
pairwise-distinct allow stamps. -/
theorem runs_correspond : ∀ (ops : List OpCall) (l : LocalLimiter) (r : RedisLimiter),
    Corresponds l r →
    (∀ op ∈ ops, ∀ k t, op.allowStamp = some (k, t) → t ∉ l.request_logs k) →
    NoDupAllowStamps ops →
    (runLocal l ops).2 = (runRedis r ops).2 := by
  intro ops
  induction ops with
  | nil => intro l r _ _ _; rfl
  | cons op ops ih =>
    intro l r h hfr hnd
    obtain ⟨hrel, hnd'⟩ := List.pairwise_cons.mp hnd
    obtain ⟨hinv, hout⟩ := step_preserves_corresponds l r op h
      (hfr op (List.mem_cons_self op ops))
    have hfr' : ∀ op' ∈ ops, ∀ k t, op'.allowStamp = some (k, t) →
        t ∉ (l.step op).1.request_logs k := by
      intro op' hm k t hst hmem
      rcases mem_step_log l op k t hmem with hmem' | hstamp
      · exact hfr op' (List.mem_cons_of_mem op hm) k t hst hmem'
      · rcases hrel op' hm with hnone | hne
        · rw [hstamp] at hnone
          exact Option.noConfusion hnone
        · exact hne (hstamp.trans hst.symm)
    simp only [runLocal, runRedis]
    rw [hout, ih _ _ hinv hfr' hnd']

/-- C3 (counterexample to the original reading): with limit 2, three
`allow` calls at the same instant.  The script's member suffix
`math.random(1000000)` is the same value on every invocation (Redis
re-seeds the Lua generator per invocation), so the second admission's
`ZADD` deduplicates against the first; the local backend stores both, so
the third call is denied locally but admitted by Redis. -/
theorem backends_equivalent_cex :
    (runLocal (LocalLimiter.init 2 10)
        [OpCall.allow "u" "m" none 0, OpCall.allow "u" "m" none 0,
         OpCall.allow "u" "m" none 0]).2 =
      [Out.allowed true, Out.allowed true, Out.allowed false] ∧
    (runRedis (RedisLimiter.init 2 10 "ratelimit" 42)
        [OpCall.allow "u" "m" none 0, OpCall.allow "u" "m" none 0,
         OpCall.allow "u" "m" none 0]).2 =
      [Out.allowed true, Out.allowed true, Out.allowed true] := by
  constructor <;>
    norm_num [runLocal, runRedis, LocalLimiter.step, RedisLimiter.step,
      LocalLimiter.allow, RedisLimiter.allow, LocalLimiter.init, RedisLimiter.init,
      RedisLimiter.getKey, allowStep, rateLimitScript, cleanupOldEntries,
      zremLeScore, zadd, setKey, getKey, List.filter]

/-- C3 (amended): the two backends produce identical observable results for
every single-process call sequence in which no two `allow` calls on the
same key share a timestamp (with same-instant admissions on one key, the
deduplicating sorted set diverges from the append-only local log). -/
theorem backends_equivalent_on_distinct_stamps (d : ℤ) (w : ℚ) (keyPfx : String)
    (rand : ℕ) (ops : List OpCall) (hnd : NoDupAllowStamps ops) :
    (runLocal (LocalLimiter.init d w) ops).2 =
      (runRedis (RedisLimiter.init d w keyPfx rand) ops).2 :=
  runs_correspond ops _ _ ⟨rfl, rfl, fun _ => rfl⟩
    (fun _ _ _ t _ hmem => absurd hmem (List.not_mem_nil t)) hnd

/-- Witness for `backends_equivalent_on_distinct_stamps`. -/
theorem backends_equivalent_on_distinct_stamps_witness :
    (runLocal (LocalLimiter.init 2 10)
        [OpCall.allow "u" "m" none 0, OpCall.allow "u" "m" none 1]).2 =
      (runRedis (RedisLimiter.init 2 10 "ratelimit" 42)
        [OpCall.allow "u" "m" none 0, OpCall.allow "u" "m" none 1]).2 :=
  backends_equivalent_on_distinct_stamps 2 10 "ratelimit" 42
    [OpCall.allow "u" "m" none 0, OpCall.allow "u" "m" none 1]
    (by unfold NoDupAllowStamps; decide)

/-! ### Theorems: distributed-backend error path -/

/-- C9: the code issues a single `evalsha` with no error handling, so the
specific unknown-script failure escapes unchanged — it is neither followed
by a re-registration and retry (the next reply, a success, is never
consumed) nor wrapped as a store-unavailable error. -/
theorem evalsha_error_propagates_unretried :
    redisAllowReplies [Except.error StoreErr.noscript, Except.ok 1] =
      Except.error StoreErr.noscript := rfl

end AIRateLimiter
